import Mathlib

/-!
Verification of the check-in bot core: transcript building, counter recovery,
decision parsing, batch delivery, message chunking, template rendering and
team-channel discovery.  Text is modelled as `List Char`; JavaScript string
operations (trim, regex search, split, slice) are embedded as executable
functions on character lists.  Machine integers are modelled as `Nat`/`Int`.
-/

set_option maxRecDepth 100000

/-- JavaScript whitespace test (`\s`), restricted to the ASCII whitespace
characters that occur in the texts handled by the bot. -/
def isWs (c : Char) : Bool :=
  c == ' ' || c == '\t' || c == '\n' || c == '\r' || c == '\x0b' || c == '\x0c'

/-- Case-insensitive character comparison, as done by a `/i` regex flag. -/
def ciEq (p c : Char) : Bool := p.toLower == c.toLower

/-- Match a literal pattern case-sensitively at the start of the text,
returning the remaining text on success. -/
def matchLiteral : List Char → List Char → Option (List Char)
  | [], s => some s
  | _ :: _, [] => none
  | p :: ps, c :: cs => if p == c then matchLiteral ps cs else none

/-- Match a literal pattern case-insensitively at the start of the text,
returning the remaining text on success. -/
def matchLiteralCI : List Char → List Char → Option (List Char)
  | [], s => some s
  | _ :: _, [] => none
  | p :: ps, c :: cs => if ciEq p c then matchLiteralCI ps cs else none

/-- Leftmost-match regex search: try the matcher at every start position,
left to right (including the empty suffix at the end of the text). -/
def findFirst (f : List Char → Option α) : List Char → Option α
  | [] => f []
  | c :: cs =>
    match f (c :: cs) with
    | some a => some a
    | none => findFirst f cs

/-- JavaScript `String.prototype.trim`: drop whitespace from both ends. -/
def jsTrim (l : List Char) : List Char :=
  ((l.dropWhile isWs).reverse.dropWhile isWs).reverse

theorem matchLiteralCI_append {p a r : List Char} (b : List Char)
    (h : matchLiteralCI p a = some r) : matchLiteralCI p (a ++ b) = some (r ++ b) := by
  induction p generalizing a with
  | nil => simp_all [matchLiteralCI]
  | cons q qs ih =>
    cases a with
    | nil => simp [matchLiteralCI] at h
    | cons c cs =>
      simp only [matchLiteralCI, List.cons_append] at h ⊢
      by_cases hc : ciEq q c = true
      · simp [hc] at h ⊢; exact ih h
      · simp [hc] at h

theorem matchLiteral_append {p a r : List Char} (b : List Char)
    (h : matchLiteral p a = some r) : matchLiteral p (a ++ b) = some (r ++ b) := by
  induction p generalizing a with
  | nil => simp_all [matchLiteral]
  | cons q qs ih =>
    cases a with
    | nil => simp [matchLiteral] at h
    | cons c cs =>
      simp only [matchLiteral, List.cons_append] at h ⊢
      by_cases hc : (q == c) = true
      · simp [hc] at h ⊢; exact ih h
      · simp [hc] at h

theorem matchLiteralCI_head_ne {q : Char} {qs : List Char} {c : Char} {cs : List Char}
    (h : ciEq q c = false) : matchLiteralCI (q :: qs) (c :: cs) = none := by
  simp [matchLiteralCI, h]

/-- If a case-insensitive literal match fails on `a` and the pattern contains no
newline-like character, then it also fails on `a` extended by a newline and more text. -/
theorem matchLiteralCI_append_newline_none {p a : List Char} (z : List Char)
    (hp : ∀ c ∈ p, ciEq c '\n' = false)
    (h : matchLiteralCI p a = none) : matchLiteralCI p (a ++ '\n' :: z) = none := by
  induction p generalizing a with
  | nil => simp [matchLiteralCI] at h
  | cons q qs ih =>
    cases a with
    | nil =>
      simpa [matchLiteralCI] using matchLiteralCI_head_ne (hp q (by simp))
    | cons c cs =>
      simp only [matchLiteralCI, List.cons_append] at h ⊢
      by_cases hc : ciEq q c = true
      · simp [hc] at h ⊢
        exact ih (fun d hd => hp d (by simp [hd])) h
      · simp [hc] at h ⊢

theorem findFirst_pos_zero {f : List Char → Option α} {s : List Char} {a : α}
    (h : f s = some a) : findFirst f s = some a := by
  cases s with
  | nil => simpa [findFirst] using h
  | cons c cs => simp [findFirst, h]

/-- If the matcher fails at every position inside the prefix `q`, the leftmost
search over `q ++ t` is the leftmost search over `t`. -/
theorem findFirst_append_left {f : List Char → Option α} {q : List Char} (t : List Char)
    (h : ∀ u, u ≠ [] → u <:+ q → f (u ++ t) = none) :
    findFirst f (q ++ t) = findFirst f t := by
  induction q with
  | nil => rfl
  | cons c cs ih =>
    have h0 : f (c :: (cs ++ t)) = none := h (c :: cs) (by simp) List.suffix_rfl
    have hgoal : findFirst f (c :: (cs ++ t)) = findFirst f (cs ++ t) := by
      simp only [findFirst, h0]
    rw [List.cons_append, hgoal]
    exact ih fun u hu hsuf => h u hu (hsuf.trans (List.suffix_cons c cs))

theorem findFirst_eq_none_iff {f : List Char → Option α} {s : List Char} :
    findFirst f s = none ↔ ∀ u, u <:+ s → f u = none := by
  induction s with
  | nil =>
    simp only [findFirst]
    constructor
    · intro h u hu
      rw [List.suffix_nil.mp hu]; exact h
    · intro h; exact h [] List.suffix_rfl
  | cons c cs ih =>
    constructor
    · intro h u hu
      simp only [findFirst] at h
      rcases hx : f (c :: cs) with _ | a
      · rw [hx] at h
        rcases List.suffix_cons_iff.mp hu with h1 | h2
        · rw [h1]; exact hx
        · exact ih.mp h u h2
      · rw [hx] at h; exact absurd h (by simp)
    · intro h
      have h0 : f (c :: cs) = none := h _ List.suffix_rfl
      simp only [findFirst, h0]
      exact ih.mpr fun u hu => h u (hu.trans (List.suffix_cons c cs))

theorem dropWhile_append_of_ne_nil {p : Char → Bool} {a : List Char} (b : List Char)
    (h : a.dropWhile p ≠ []) : (a ++ b).dropWhile p = a.dropWhile p ++ b := by
  induction a with
  | nil => simp [List.dropWhile] at h
  | cons c cs ih =>
    by_cases hc : p c = true
    · simp only [List.dropWhile_cons, hc, if_true, List.cons_append] at h ⊢
      simpa [List.dropWhile_cons, hc] using ih h
    · simp [List.dropWhile_cons, hc]

theorem takeWhile_append_stop {p : Char → Bool} {a : List Char} {c : Char} (b : List Char)
    (ha : ∀ x ∈ a, p x = true) (hc : p c = false) :
    (a ++ c :: b).takeWhile p = a := by
  induction a with
  | nil => simp [List.takeWhile_cons, hc]
  | cons x xs ih =>
    have hx : p x = true := ha x (by simp)
    simp only [List.cons_append, List.takeWhile_cons, hx, if_true]
    simpa using ih fun y hy => ha y (by simp [hy])

theorem jsTrim_cons_of_ws {c : Char} {l : List Char} (h : isWs c = true) :
    jsTrim (c :: l) = jsTrim l := by
  simp [jsTrim, List.dropWhile_cons, h]

theorem jsTrim_eq_self {s : List Char}
    (h1 : ∀ c, s.head? = some c → isWs c = false)
    (h2 : ∀ c, s.getLast? = some c → isWs c = false) :
    jsTrim s = s := by
  cases s with
  | nil => rfl
  | cons c cs =>
    have hc : isWs c = false := h1 c rfl
    have hdrop : (c :: cs).dropWhile isWs = c :: cs := by
      simp [List.dropWhile_cons, hc]
    rw [jsTrim, hdrop]
    rcases hrev : (c :: cs).reverse with _ | ⟨d, ds⟩
    · exact absurd hrev (by simp)
    · have hd : (c :: cs).getLast? = some d := by
        rw [← List.head?_reverse, hrev]; rfl
      have hdw : isWs d = false := h2 d hd
      rw [List.dropWhile_cons, hdw]
      simp only [Bool.false_eq_true, if_false]
      rw [← hrev, List.reverse_reverse]

/-- Collapse every whitespace run into a single space while walking the text
(the `prevWs` flag records whether the current position continues a run).
Embeds the JavaScript `content.replace(/\s+/g, " ")`. -/
def collapseWsAux (prevWs : Bool) : List Char → List Char
  | [] => []
  | c :: cs =>
    if isWs c then
      if prevWs then collapseWsAux true cs else ' ' :: collapseWsAux true cs
    else c :: collapseWsAux false cs

/-- `cleanContent` from `transcript.ts`: collapse whitespace runs to single
spaces, trim, and substitute a sentinel for empty results. -/
def cleanContent (content : List Char) : List Char :=
  let compact := jsTrim (collapseWsAux false content)
  if compact.isEmpty then "[no text]".toList else compact

/-- Value of a digit run, as `Number` computes it for a `\d+` capture. -/
def digitsToNat (ds : List Char) : Nat :=
  ds.foldl (fun a c => a * 10 + (c.toNat - '0'.toNat)) 0

/-- Match `CHECKIN_MARKER_REGEX` = `/\[POLY_CHECKIN #(\d+)\]/i` at the current
position, returning the captured number. -/
def matchMarkerAt (s : List Char) : Option Nat :=
  match matchLiteralCI "[POLY_CHECKIN #".toList s with
  | none => none
  | some r =>
    let digits := r.takeWhile Char.isDigit
    if digits.isEmpty then none
    else if (r.dropWhile Char.isDigit).head? = some ']' then some (digitsToNat digits)
    else none

/-- Leftmost match of the check-in marker regex in a message content. -/
def findMarker (s : List Char) : Option Nat := findFirst matchMarkerAt s

/-- Match the legacy pattern `/Check-in #(\d+)/i` (present in the earlier
revision of the bot's counter recovery) at the current position. -/
def matchLegacyAt (s : List Char) : Option Nat :=
  match matchLiteralCI "Check-in #".toList s with
  | none => none
  | some r =>
    let digits := r.takeWhile Char.isDigit
    if digits.isEmpty then none else some (digitsToNat digits)

/-- Leftmost match of the legacy `Check-in #N` pattern. -/
def findLegacyMarker (s : List Char) : Option Nat := findFirst matchLegacyAt s

/-- A raw channel message as delivered by the message store. -/
structure RawMessage where
  id : String
  authorId : String
  authorName : String
  createdAt : Int
  content : List Char
deriving DecidableEq, Repr

/-- `TranscriptMessage` from `transcript.ts`. -/
structure TranscriptMessage where
  id : String
  authorId : String
  authorName : String
  createdAt : Int
  content : List Char
deriving DecidableEq, Repr

/-- The per-message normalization performed while paginating. -/
def toTranscriptMessage (m : RawMessage) : TranscriptMessage :=
  { id := m.id, authorId := m.authorId, authorName := m.authorName,
    createdAt := m.createdAt, content := cleanContent m.content }

/-- Comparator used by `all.sort((a, b) => a.createdAt.getTime() - b.createdAt.getTime())`. -/
def msgLE (a b : TranscriptMessage) : Prop := a.createdAt ≤ b.createdAt

instance : DecidableRel msgLE := fun _ _ => Int.decLe _ _

instance : IsTotal TranscriptMessage msgLE := ⟨fun _ _ => Int.le_total _ _⟩

instance : IsTrans TranscriptMessage msgLE := ⟨fun _ _ _ => Int.le_trans⟩

/-- `fetchAllMessages` from `transcript.ts`: collect all pages in delivery
order, normalize each message, and stable-sort by creation time (JavaScript
`Array.prototype.sort` is stable; insertion sort realizes the same function). -/
def fetchAllMessages (pages : List (List RawMessage)) : List TranscriptMessage :=
  List.insertionSort msgLE ((pages.flatten).map toTranscriptMessage)

/-- `ChannelTranscript` from `transcript.ts`. -/
structure ChannelTranscript where
  channelId : String
  channelName : String
  messages : List TranscriptMessage
  latestCheckinNumber : Option Nat
  latestCheckinTimestamp : Option Int
deriving DecidableEq, Repr

/-- `buildTranscript` from `transcript.ts`: fetch and sort the history, then
scan forward overwriting the latest check-in number/timestamp with every
bot-authored marker match. -/
def buildTranscript (pages : List (List RawMessage)) (botUserId : String)
    (channelId channelName : String) : ChannelTranscript :=
  let messages := fetchAllMessages pages
  let scan := messages.foldl (fun acc m =>
    if m.authorId = botUserId then
      match findMarker m.content with
      | some n => (some n, some m.createdAt)
      | none => acc
    else acc) ((none : Option Nat), (none : Option Int))
  { channelId := channelId, channelName := channelName, messages := messages,
    latestCheckinNumber := scan.1, latestCheckinTimestamp := scan.2 }

/-- The chronological list of (number, timestamp) pairs of bot-authored
marker messages in a message sequence. -/
def botMarkers (botUserId : String) (ms : List TranscriptMessage) : List (Nat × Int) :=
  ms.filterMap fun m =>
    if m.authorId = botUserId then (findMarker m.content).map (fun n => (n, m.createdAt))
    else none

/-- `detectLastCheckinNumber` (current revision): scan the whole control
channel history and keep the maximum marker value among bot-authored messages.
The legacy `Check-in #N` pattern is not consulted in this revision. -/
def detectLastCheckinNumber (pages : List (List RawMessage)) (botUserId : String) : Nat :=
  (fetchAllMessages pages).foldl (fun mx m =>
    if m.authorId = botUserId then
      match findMarker m.content with
      | some n => Nat.max mx n
      | none => mx
    else mx) 0

/-- The chronological list of marker values of bot-authored marker messages. -/
def botMarkerVals (botUserId : String) (ms : List TranscriptMessage) : List Nat :=
  ms.filterMap fun m =>
    if m.authorId = botUserId then findMarker m.content else none

/-- The action token captured by `/ACTION:\s*(REPLY|ESCALATE)/i`. -/
inductive StandbyAction | reply | escalate
deriving DecidableEq, Repr

/-- `StandbyDecision` from the bot source. -/
inductive StandbyDecision
  | reply (message : List Char)
  | escalate (reason : List Char) (draft : List Char)
deriving DecidableEq, Repr

/-- Try `/ACTION:\s*(REPLY|ESCALATE)/i` at the current position.  The `\s*` is
greedy and forced (neither alternative starts with whitespace); the alternation
tries `REPLY` first. -/
def matchActionAt (s : List Char) : Option StandbyAction :=
  match matchLiteralCI "ACTION:".toList s with
  | none => none
  | some r =>
    let r2 := r.dropWhile isWs
    if (matchLiteralCI "REPLY".toList r2).isSome then some .reply
    else if (matchLiteralCI "ESCALATE".toList r2).isSome then some .escalate
    else none

/-- Character class `[^\n]`. -/
def notNl (c : Char) : Bool := c != '\n'

/-- The `\s*([^\n]+)` tail of `/REASON:\s*([^\n]+)/i`: consume whitespace
greedily, backtracking one character at a time when `[^\n]+` cannot start. -/
def reasonGroup : List Char → Option (List Char)
  | [] => none
  | c :: cs =>
    if isWs c then
      match reasonGroup cs with
      | some g => some g
      | none => if c = '\n' then none else some (List.takeWhile notNl (c :: cs))
    else some (List.takeWhile notNl (c :: cs))

/-- Try `/REASON:\s*([^\n]+)/i` at the current position. -/
def matchReasonAt (s : List Char) : Option (List Char) :=
  match matchLiteralCI "REASON:".toList s with
  | none => none
  | some r => reasonGroup r

/-- `normalized.match(/ACTION:\s*(REPLY|ESCALATE)/i)?.[1]?.toUpperCase()`. -/
def actionOf (s : List Char) : Option StandbyAction := findFirst matchActionAt s

/-- `normalized.match(/MESSAGE:\s*([\s\S]*)/i)?.[1]?.trim()`; the greedy `\s*`
followed by `([\s\S]*)` and a trailing `.trim()` amount to trimming everything
after the first `MESSAGE:`. -/
def messageOf (s : List Char) : Option (List Char) :=
  (findFirst (matchLiteralCI "MESSAGE:".toList) s).map jsTrim

/-- `normalized.match(/REASON:\s*([^\n]+)/i)?.[1]?.trim() ?? "Uncertain response."`. -/
def reasonOf (s : List Char) : List Char :=
  ((findFirst matchReasonAt s).map jsTrim).getD "Uncertain response.".toList

/-- `normalized.match(/DRAFT:\s*([\s\S]*)/i)?.[1]?.trim() ?? ""`. -/
def draftOf (s : List Char) : List Char :=
  ((findFirst (matchLiteralCI "DRAFT:".toList) s).map jsTrim).getD []

/-- Reason used by the unparseable-input fallback. -/
def parseFailReason : List Char := "Could not parse assistant decision.".toList

/-- The fallback decision: escalate with a parse-failure reason and the first
500 characters of the trimmed raw text (`normalized.slice(0, 500)`). -/
def parseFallback (normalized : List Char) : StandbyDecision :=
  .escalate parseFailReason (normalized.take 500)

/-- `parseStandbyDecision` from the bot source. -/
def parseStandbyDecision (raw : List Char) : StandbyDecision :=
  let normalized := jsTrim raw
  match actionOf normalized with
  | some .reply =>
    match messageOf normalized with
    | some msg => if msg.isEmpty then parseFallback normalized else .reply msg
    | none => parseFallback normalized
  | some .escalate => .escalate (reasonOf normalized) (draftOf normalized)
  | none => parseFallback normalized

/-- `text.split("\n")` on character lists. -/
def splitLinesJS : List Char → List (List Char)
  | [] => [[]]
  | c :: cs =>
    if c = '\n' then [] :: splitLinesJS cs
    else
      match splitLinesJS cs with
      | [] => [[c]]
      | l :: ls => (c :: l) :: ls

/-- Hard character-boundary chunks of an over-long line:
`while (start < line.length) parts.push(line.slice(start, start + maxLen))`.
The source never calls this with `maxLen = 0` (the JavaScript loop would not
terminate there); that case is mapped to a single chunk. -/
def hardChunks (m : Nat) (s : List Char) : List (List Char) :=
  if hs : s.isEmpty then []
  else if hm : m = 0 then [s]
  else
    have : (s.drop m).length < s.length := by
      simp only [List.length_drop]
      have hs' : 0 < s.length := by
        cases s with
        | nil => simp [List.isEmpty] at hs
        | cons a l => simp
      omega
    s.take m :: hardChunks m (s.drop m)
termination_by s.length

/-- The line-accumulation loop of `splitForDiscord`; `current` is the chunk
being accumulated. -/
def splitLoop (m : Nat) : List (List Char) → List Char → List (List Char)
  | [], current => if current.isEmpty then [] else [current]
  | line :: rest, current =>
    if current.length + 1 + line.length > m then
      (if current.isEmpty then [] else [current]) ++
        (if line.length > m then hardChunks m line ++ splitLoop m rest []
         else splitLoop m rest line)
    else
      splitLoop m rest (if current.isEmpty then line else current ++ '\n' :: line)

/-- `splitForDiscord` from the bot source (`maxLen` is 1900 at every call site). -/
def splitForDiscord (m : Nat) (text : List Char) : List (List Char) :=
  if text.length ≤ m then [text] else splitLoop m (splitLinesJS text) []

/-- `t` is the concatenation of the chunks `ps` in order, with a (possibly
empty) run of newline characters before, between and after the chunks. -/
inductive NLJoin : List (List Char) → List Char → Prop
  | nil (s : List Char) (hs : ∀ c ∈ s, c = '\n') : NLJoin [] s
  | cons (s p : List Char) (ps : List (List Char)) (t : List Char)
      (hs : ∀ c ∈ s, c = '\n') (ht : NLJoin ps t) : NLJoin (p :: ps) (s ++ p ++ t)

/-- A guild channel as seen by the channel cache (name and whether it is a
guild text channel). -/
structure GuildChannel where
  name : List Char
  isText : Bool
deriving DecidableEq, Repr

/-- `MAX_TEAM_NUMBER` from the bot source. -/
def MAX_TEAM_NUMBER : Nat := 3

/-- Full match of `TEAM_CHANNEL_REGEX` = `/^team-(\d{1,2})$/i` against a
channel name, returning the captured team number. -/
def matchTeamName (name : List Char) : Option Nat :=
  match matchLiteralCI "team-".toList name with
  | none => none
  | some r =>
    if r.length = 0 then none
    else if r.all Char.isDigit && decide (r.length ≤ 2) then some (digitsToNat r)
    else none

/-- `getTeamNumber` from the bot source (999 when the name does not match). -/
def getTeamNumber (name : List Char) : Nat := (matchTeamName name).getD 999

/-- Comparator used by `.sort((a, b) => getTeamNumber(a.name) - getTeamNumber(b.name))`. -/
def chLE (a b : GuildChannel) : Prop := getTeamNumber a.name ≤ getTeamNumber b.name

instance : DecidableRel chLE := fun _ _ => Nat.decLe _ _

instance : IsTotal GuildChannel chLE := ⟨fun _ _ => Nat.le_total _ _⟩

instance : IsTrans GuildChannel chLE := ⟨fun _ _ _ => Nat.le_trans⟩

/-- `getTeamChannels` (current revision): text channels whose name matches the
team pattern with number at most `MAX_TEAM_NUMBER`, sorted by team number. -/
def getTeamChannels (channels : List GuildChannel) : List GuildChannel :=
  List.insertionSort chLE
    (((channels.filter (fun c => c.isText)).filter
        (fun c => (matchTeamName c.name).isSome)).filter
      (fun c => decide (getTeamNumber c.name ≤ MAX_TEAM_NUMBER)))

/-- The sequential delivery loop shared by `runCheckin` and `runSend`: attempt
each channel independently, recording its name in the sent or failed list.
`ok c` states whether the send to channel `c` succeeds. -/
def deliverAll (ok : GuildChannel → Bool) (channels : List GuildChannel) :
    List (List Char) × List (List Char) :=
  channels.foldl
    (fun acc c => if ok c then (acc.1 ++ [c.name], acc.2) else (acc.1, acc.2 ++ [c.name]))
    ([], [])

/-- One `runCheckin` trigger, from the point where team channels are known:
an empty team list returns early without touching the counter; otherwise the
counter is lazily initialized from the recovered maximum, incremented by one,
and the check-in is delivered to every team channel.  Returns the reported
(number, sent, failed) and the new counter state. -/
def runCheckinStep (recovered : Nat) (teamChannels : List GuildChannel)
    (ok : GuildChannel → Bool) (cached : Option Nat) :
    Option (Nat × List (List Char) × List (List Char)) × Option Nat :=
  if teamChannels.isEmpty then (none, cached)
  else
    let base := cached.getD recovered
    let n := base + 1
    let sf := deliverAll ok teamChannels
    (some (n, sf.1, sf.2), some n)

/-- `runSend`, from the point where team channels are known: select the target
channels, then deliver to each independently. -/
def runSendStep (teamChannels : List GuildChannel) (target : List Char)
    (ok : GuildChannel → Bool) : Option (List (List Char) × List (List Char)) :=
  if teamChannels.isEmpty then none
  else
    let selected :=
      if target = "all".toList then teamChannels
      else teamChannels.filter (fun c => c.name == target)
    if selected.isEmpty then none else some (deliverAll ok selected)

/-- The sequence of check-in numbers produced by consecutive triggers within
one process lifetime.  Each trigger supplies its team-channel list and the
per-channel delivery outcome; triggers with no team channels do not reach the
numbering step and produce no number. -/
def checkinNumbers (recovered : Nat) :
    List (List GuildChannel × (GuildChannel → Bool)) → Option Nat → List Nat
  | [], _ => []
  | trig :: rest, st =>
    match runCheckinStep recovered trig.1 trig.2 st with
    | (some res, st') => res.1 :: checkinNumbers recovered rest st'
    | (none, st') => checkinNumbers recovered rest st'

/-- Character class of placeholder names, `[a-zA-Z0-9_]`. -/
def isNameChar (c : Char) : Bool := c.isAlphanum || c == '_'

/-- Try `PLACEHOLDER_REGEX` = `/{{\s*([a-zA-Z0-9_]+)\s*}}/g` at the current
position, returning the captured name and the rest of the text after the match.
All sub-patterns are forced (name characters and braces are not whitespace). -/
def matchPlaceholderAt (s : List Char) : Option (List Char × List Char) :=
  match matchLiteral "\x7b\x7b".toList s with
  | none => none
  | some r1 =>
    let r2 := r1.dropWhile isWs
    let name := r2.takeWhile isNameChar
    if name.isEmpty then none
    else
      match matchLiteral "\x7d\x7d".toList ((r2.dropWhile isNameChar).dropWhile isWs) with
      | none => none
      | some r4 => some (name, r4)

/-- Try the per-key pattern `new RegExp("{{\\s*" + key + "\\s*}}", "g")` at the
current position (faithful for the identifier-shaped keys the bot uses). -/
def matchKeyAt (key : List Char) (s : List Char) : Option (List Char) :=
  match matchLiteral "\x7b\x7b".toList s with
  | none => none
  | some r1 =>
    match matchLiteral key (r1.dropWhile isWs) with
    | none => none
    | some r2 => matchLiteral "\x7d\x7d".toList (r2.dropWhile isWs)

/-- Global left-to-right replacement of the key pattern, with fuel bounded by
the text length (every match consumes at least four characters). -/
def replaceKeyFuel (key v : List Char) : Nat → List Char → List Char
  | _, [] => []
  | 0, s => s
  | fuel + 1, c :: cs =>
    match matchKeyAt key (c :: cs) with
    | some rest => v ++ replaceKeyFuel key v fuel rest
    | none => c :: replaceKeyFuel key v fuel cs

/-- `out.replace(pattern, value)` with the global flag. -/
def replaceKey (key v : List Char) (s : List Char) : List Char :=
  replaceKeyFuel key v s.length s

/-- Global scan for leftover placeholders (`[...out.matchAll(PLACEHOLDER_REGEX)]`),
with fuel bounded by the text length. -/
def findPlaceholdersFuel : Nat → List Char → List (List Char)
  | _, [] => []
  | 0, _ => []
  | fuel + 1, c :: cs =>
    match matchPlaceholderAt (c :: cs) with
    | some nr => nr.1 :: findPlaceholdersFuel fuel nr.2
    | none => findPlaceholdersFuel fuel cs

/-- The names of all placeholders left in a rendered string. -/
def findPlaceholders (s : List Char) : List (List Char) :=
  findPlaceholdersFuel s.length s

/-- `renderTemplate` from `promptConfig.ts`: substitute each mapping entry in
order, then fail with the list of unresolved placeholder names if any placeholder
syntax survives. -/
def renderTemplate (template : List Char) (values : List (List Char × List Char)) :
    Except (List (List Char)) (List Char) :=
  let out := values.foldl (fun s kv => replaceKey kv.1 kv.2 s) template
  let unresolved := findPlaceholders out
  if unresolved.isEmpty then .ok out else .error unresolved

theorem findPlaceholdersFuel_nil_suffix {fuel : Nat} {s : List Char}
    (hf : s.length ≤ fuel) (h : findPlaceholdersFuel fuel s = []) :
    ∀ u, u <:+ s → matchPlaceholderAt u = none := by
  induction fuel generalizing s with
  | zero =>
    intro u hu
    cases s with
    | nil =>
      rw [List.suffix_nil.mp hu]
      rfl
    | cons c cs => simp at hf
  | succ fuel ih =>
    intro u hu
    cases s with
    | nil =>
      rw [List.suffix_nil.mp hu]
      rfl
    | cons c cs =>
      simp only [findPlaceholdersFuel] at h
      rcases hx : matchPlaceholderAt (c :: cs) with _ | nr
      · rw [hx] at h
        rcases List.suffix_cons_iff.mp hu with h1 | h2
        · rw [h1]; exact hx
        · exact ih (by simpa using Nat.le_of_succ_le_succ (by simpa using hf)) h u h2
      · rw [hx] at h; exact absurd h (by simp)

/-- C9: `renderTemplate` substitutes the supplied mapping and then fails
closed: either the returned string contains no substring matching the
placeholder pattern at any position, or the call fails with the non-empty list
of unresolved placeholder names found in the substituted string. -/
theorem renderTemplate_fail_closed (template : List Char)
    (values : List (List Char × List Char)) :
    (∃ s, renderTemplate template values = .ok s ∧
      ∀ u, u <:+ s → matchPlaceholderAt u = none) ∨
    (∃ l, renderTemplate template values = .error l ∧ l ≠ [] ∧
      l = findPlaceholders (values.foldl (fun s kv => replaceKey kv.1 kv.2 s) template)) := by
  unfold renderTemplate
  by_cases h :
      (findPlaceholders (values.foldl (fun s kv => replaceKey kv.1 kv.2 s) template)).isEmpty
  · left
    refine ⟨values.foldl (fun s kv => replaceKey kv.1 kv.2 s) template, by simp [h], ?_⟩
    exact findPlaceholdersFuel_nil_suffix (Nat.le_refl _) (List.isEmpty_iff.mp h)
  · right
    refine ⟨findPlaceholders (values.foldl (fun s kv => replaceKey kv.1 kv.2 s) template),
      by simp [h], ?_, rfl⟩
    simpa [List.isEmpty_iff] using h

/-- Witness for C9 at a concrete template and mapping. -/
theorem renderTemplate_fail_closed_witness :
    renderTemplate "\x7b\x7ba\x7d\x7d x".toList [("a".toList, "1".toList)] = .ok "1 x".toList ∧
    ((∃ s, renderTemplate "\x7b\x7ba\x7d\x7d x".toList [("a".toList, "1".toList)] = .ok s ∧
        ∀ u, u <:+ s → matchPlaceholderAt u = none) ∨
      (∃ l, renderTemplate "\x7b\x7ba\x7d\x7d x".toList [("a".toList, "1".toList)] = .error l ∧
        l ≠ [] ∧ l = findPlaceholders ([("a".toList, "1".toList)].foldl
          (fun s kv => replaceKey kv.1 kv.2 s) "\x7b\x7ba\x7d\x7d x".toList))) :=
  ⟨rfl, renderTemplate_fail_closed _ _⟩

/-- C8: the transcript message sequence is sorted non-decreasing by creation
timestamp for every page order delivered by the store, and building a
transcript twice over the same channel state yields identical output. -/
theorem fetchAllMessages_sorted_and_deterministic (pages : List (List RawMessage)) :
    List.Sorted msgLE (fetchAllMessages pages) ∧
    ∀ botUserId channelId channelName,
      buildTranscript pages botUserId channelId channelName =
        buildTranscript pages botUserId channelId channelName :=
  ⟨List.sorted_insertionSort msgLE _, fun _ _ _ => rfl⟩

/-- C10: `getTeamChannels` keeps exactly the text channels matching
`team-N` with `N ≤ MAX_TEAM_NUMBER` (3), sorted ascending by team number;
matching channels with a larger number are excluded. -/
theorem getTeamChannels_spec (channels : List GuildChannel) :
    (∀ c, c ∈ getTeamChannels channels ↔
      c ∈ channels ∧ c.isText = true ∧
        ∃ n, matchTeamName c.name = some n ∧ n ≤ MAX_TEAM_NUMBER) ∧
    List.Sorted chLE (getTeamChannels channels) ∧
    (∀ c ∈ channels, ∀ n, matchTeamName c.name = some n → MAX_TEAM_NUMBER < n →
      c ∉ getTeamChannels channels) := by
  have hmem : ∀ c, c ∈ getTeamChannels channels ↔
      c ∈ channels ∧ c.isText = true ∧
        ∃ n, matchTeamName c.name = some n ∧ n ≤ MAX_TEAM_NUMBER := by
    intro c
    unfold getTeamChannels
    rw [(List.perm_insertionSort chLE _).mem_iff]
    simp only [List.mem_filter, decide_eq_true_eq]
    constructor
    · rintro ⟨⟨⟨hc, htext⟩, hsome⟩, hle⟩
      rcases Option.isSome_iff_exists.mp hsome with ⟨n, hn⟩
      refine ⟨hc, htext, n, hn, ?_⟩
      have : getTeamNumber c.name = n := by simp [getTeamNumber, hn]
      omega
    · rintro ⟨hc, htext, n, hn, hle⟩
      have hnum : getTeamNumber c.name = n := by simp [getTeamNumber, hn]
      exact ⟨⟨⟨hc, htext⟩, by simp [hn]⟩, by omega⟩
  refine ⟨hmem, List.sorted_insertionSort chLE _, ?_⟩
  intro c _ n hn hgt hcmem
  rcases (hmem c).mp hcmem with ⟨_, _, n', hn', hle'⟩
  rw [hn] at hn'
  have : n = n' := by injection hn'
  omega

/-- Witness for C10: a concrete channel set where `team-4` is silently
excluded while `team-2`, `team-3` are kept in ascending order. -/
theorem getTeamChannels_spec_witness :
    getTeamChannels
        [⟨"team-3".toList, true⟩, ⟨"team-4".toList, true⟩, ⟨"general".toList, true⟩,
          ⟨"team-1".toList, false⟩, ⟨"team-2".toList, true⟩] =
      [⟨"team-2".toList, true⟩, ⟨"team-3".toList, true⟩] ∧
    (⟨"team-4".toList, true⟩ : GuildChannel) ∉ getTeamChannels
        [⟨"team-3".toList, true⟩, ⟨"team-4".toList, true⟩, ⟨"general".toList, true⟩,
          ⟨"team-1".toList, false⟩, ⟨"team-2".toList, true⟩] :=
  ⟨by decide,
    (getTeamChannels_spec _).2.2 ⟨"team-4".toList, true⟩ (by decide) 4 (by decide) (by decide)⟩

theorem checkinNumbers_from_some (recovered k : Nat)
    (trigs : List (List GuildChannel × (GuildChannel → Bool)))
    (h : ∀ t ∈ trigs, t.1.isEmpty = false) :
    checkinNumbers recovered trigs (some k) = List.range' (k + 1) trigs.length := by
  induction trigs generalizing k with
  | nil => rfl
  | cons trig rest ih =>
    have hne : trig.1.isEmpty = false := h trig (by simp)
    simp only [checkinNumbers, runCheckinStep, hne, Bool.false_eq_true, if_false,
      Option.getD_some, List.length_cons]
    rw [ih (k + 1) fun t ht => h t (by simp [ht])]
    rfl

/-- C4: within one process lifetime, every check-in trigger that reaches the
numbering step increments the counter by exactly 1, independent of channel
lists and delivery outcomes: N consecutive triggers starting from the
recovered maximum produce the contiguous run
recovered+1, recovered+2, ..., recovered+N, and the counter never decreases. -/
theorem checkin_counter_contiguous (recovered : Nat)
    (trigs : List (List GuildChannel × (GuildChannel → Bool)))
    (h : ∀ t ∈ trigs, t.1.isEmpty = false) :
    checkinNumbers recovered trigs none = List.range' (recovered + 1) trigs.length ∧
    ∀ (teamChannels : List GuildChannel) (ok : GuildChannel → Bool) (st : Option Nat) (m : Nat),
      (runCheckinStep recovered teamChannels ok st).2 = some m →
      ∀ k, st = some k → k ≤ m := by
  constructor
  · cases trigs with
    | nil => rfl
    | cons trig rest =>
      have hne : trig.1.isEmpty = false := h trig (by simp)
      simp only [checkinNumbers, runCheckinStep, hne, Bool.false_eq_true, if_false,
        Option.getD_none, List.length_cons]
      rw [checkinNumbers_from_some recovered (recovered + 1) rest
        fun t ht => h t (by simp [ht])]
      rfl
  · intro teamChannels ok st m hm k hk
    subst hk
    by_cases he : teamChannels.isEmpty
    · simp only [runCheckinStep, he, if_true] at hm
      injection hm with hm'
      omega
    · simp only [runCheckinStep, he, Bool.false_eq_true, if_false, Option.getD_some] at hm
      injection hm with hm'
      omega

/-- Witness for C4: two consecutive triggers after recovering 5, the second
with a failing delivery, still number 6 then 7. -/
theorem checkin_counter_contiguous_witness :
    checkinNumbers 5
        [([⟨"team-1".toList, true⟩], fun _ => true),
          ([⟨"team-1".toList, true⟩], fun _ => false)] none = [6, 7] := by
  have h := (checkin_counter_contiguous 5
    [([⟨"team-1".toList, true⟩], fun _ => true),
      ([⟨"team-1".toList, true⟩], fun _ => false)]
    (by intro t ht; simp only [List.mem_cons, List.mem_singleton] at ht
        rcases ht with h1 | h1 | h1 <;> simp_all)).1
  simpa using h

theorem deliverAll_foldl_aux (ok : GuildChannel → Bool) (channels : List GuildChannel) :
    ∀ s0 f0 : List (List Char),
      channels.foldl
          (fun acc c => if ok c then (acc.1 ++ [c.name], acc.2) else (acc.1, acc.2 ++ [c.name]))
          (s0, f0) =
        (s0 ++ (channels.filter ok).map GuildChannel.name,
          f0 ++ (channels.filter (fun c => !(ok c))).map GuildChannel.name) := by
  induction channels with
  | nil => simp
  | cons c cs ih =>
    intro s0 f0
    by_cases hc : ok c = true
    · simp only [List.foldl_cons, hc, if_true, ih, List.filter_cons, Bool.not_true]
      simp [hc, List.append_assoc]
    · simp only [List.foldl_cons, hc, Bool.false_eq_true, if_false, ih, List.filter_cons,
        Bool.not_false]
      simp [hc, List.append_assoc]

theorem deliverAll_eq (ok : GuildChannel → Bool) (channels : List GuildChannel) :
    deliverAll ok channels =
      ((channels.filter ok).map GuildChannel.name,
        (channels.filter (fun c => !(ok c))).map GuildChannel.name) := by
  simpa [deliverAll] using deliverAll_foldl_aux ok channels [] []

/-- C5: every batch send partitions its target set exactly: the sent list is
the (names of the) channels whose delivery succeeds and the failed list those
whose delivery fails, together a permutation of all targeted names; each
channel's outcome depends only on its own delivery, a failure on one channel
never removes another channel from the attempt list; and both `runCheckin` and
`runSend` report exactly this partition of their selected target channels. -/
theorem batch_delivery_partition (ok : GuildChannel → Bool) :
    (∀ channels : List GuildChannel,
      (deliverAll ok channels).1 = (channels.filter ok).map GuildChannel.name ∧
      (deliverAll ok channels).2 = (channels.filter (fun c => !(ok c))).map GuildChannel.name ∧
      ((deliverAll ok channels).1 ++ (deliverAll ok channels).2).Perm
        (channels.map GuildChannel.name) ∧
      (∀ c ∈ channels, (ok c = true → c.name ∈ (deliverAll ok channels).1) ∧
        (ok c = false → c.name ∈ (deliverAll ok channels).2)) ∧
      (∀ x, x ∈ (deliverAll ok channels).1 ∨ x ∈ (deliverAll ok channels).2 →
        x ∈ channels.map GuildChannel.name) ∧
      ((channels.map GuildChannel.name).Nodup →
        ∀ x, ¬(x ∈ (deliverAll ok channels).1 ∧ x ∈ (deliverAll ok channels).2))) ∧
    (∀ (recovered : Nat) (teamChannels : List GuildChannel) (st : Option Nat)
        (n : Nat) (s f : List (List Char)),
      (runCheckinStep recovered teamChannels ok st).1 = some (n, s, f) →
      (s, f) = deliverAll ok teamChannels) ∧
    (∀ (teamChannels : List GuildChannel) (target : List Char) (s f : List (List Char)),
      runSendStep teamChannels target ok = some (s, f) →
      (s, f) = deliverAll ok
        (if target = "all".toList then teamChannels
         else teamChannels.filter (fun c => c.name == target))) := by
  refine ⟨fun channels => ?_, ?_, ?_⟩
  · rw [deliverAll_eq]
    refine ⟨rfl, rfl, ?_, ?_, ?_, ?_⟩
    · rw [← List.map_append]
      exact List.Perm.map _ (List.filter_append_perm ok channels)
    · intro c hc
      constructor
      · intro hok
        exact List.mem_map_of_mem _ (List.mem_filter.mpr ⟨hc, hok⟩)
      · intro hok
        exact List.mem_map_of_mem _ (List.mem_filter.mpr ⟨hc, by simp [hok]⟩)
    · intro x hx
      rcases hx with hx | hx <;>
        · rcases List.mem_map.mp hx with ⟨c, hcf, hcn⟩
          exact hcn ▸ List.mem_map_of_mem _ (List.mem_filter.mp hcf).1
    · intro hnodup x ⟨hx1, hx2⟩
      rcases List.mem_map.mp hx1 with ⟨c1, hc1, hn1⟩
      rcases List.mem_map.mp hx2 with ⟨c2, hc2, hn2⟩
      have hc1m : c1 ∈ channels := (List.mem_filter.mp hc1).1
      have hc2m : c2 ∈ channels := (List.mem_filter.mp hc2).1
      have hceq : c1 = c2 :=
        List.inj_on_of_nodup_map hnodup hc1m hc2m (by rw [hn1, hn2])
      have h1 : ok c1 = true := (List.mem_filter.mp hc1).2
      have h2 : (!(ok c2)) = true := (List.mem_filter.mp hc2).2
      rw [hceq] at h1
      simp [h1] at h2
  · intro recovered teamChannels st n s f hstep
    by_cases he : teamChannels.isEmpty
    · simp [runCheckinStep, he] at hstep
    · simp only [runCheckinStep, he, Bool.false_eq_true, if_false] at hstep
      injection hstep with hstep'
      injection hstep' with _ hsf
      injection hsf with hs hf
      rw [← hs, ← hf]
  · intro teamChannels target s f hstep
    by_cases he : teamChannels.isEmpty
    · simp [runSendStep, he] at hstep
    · simp only [runSendStep, he, Bool.false_eq_true, if_false] at hstep
      by_cases ht : target = "all".toList
      · simp only [ht, if_true] at hstep ⊢
        by_cases hsel : teamChannels.isEmpty
        · simp [hsel] at hstep
        · simp only [hsel, Bool.false_eq_true, if_false] at hstep
          injection hstep with hstep'
          rw [← hstep']
      · simp only [ht, if_false] at hstep ⊢
        by_cases hsel : (teamChannels.filter (fun c => c.name == target)).isEmpty
        · simp [hsel] at hstep
        · simp only [hsel, Bool.false_eq_true, if_false] at hstep
          injection hstep with hstep'
          rw [← hstep']

/-- Witness for C5: the spec scenario of three targets with delivery failing
on exactly one reports two delivered and one failed channel by name, and the
failed channel is in exactly one of the two lists. -/
theorem batch_delivery_partition_witness :
    deliverAll (fun c => !(c.name == "team-2".toList))
        [⟨"team-1".toList, true⟩, ⟨"team-2".toList, true⟩, ⟨"team-3".toList, true⟩] =
      (["team-1".toList, "team-3".toList], ["team-2".toList]) ∧
    ¬("team-2".toList ∈ (deliverAll (fun c => !(c.name == "team-2".toList))
        [⟨"team-1".toList, true⟩, ⟨"team-2".toList, true⟩, ⟨"team-3".toList, true⟩]).1 ∧
      "team-2".toList ∈ (deliverAll (fun c => !(c.name == "team-2".toList))
        [⟨"team-1".toList, true⟩, ⟨"team-2".toList, true⟩, ⟨"team-3".toList, true⟩]).2) :=
  ⟨by decide,
    (((batch_delivery_partition (fun c => !(c.name == "team-2".toList))).1
      [⟨"team-1".toList, true⟩, ⟨"team-2".toList, true⟩,
        ⟨"team-3".toList, true⟩]).2.2.2.2.2 (by decide)) "team-2".toList⟩

theorem getLast?_cons_eq {α : Type} (a : α) (l : List α) :
    (a :: l).getLast? = some (l.getLast?.getD a) := by
  induction l generalizing a with
  | nil => rfl
  | cons b bs ih =>
    rw [List.getLast?_cons_cons, ih b]
    simp

theorem buildTranscript_scan_foldl (botUserId : String) :
    ∀ (ms : List TranscriptMessage) (acc : Option Nat × Option Int),
      ms.foldl (fun acc m =>
          if m.authorId = botUserId then
            match findMarker m.content with
            | some n => (some n, some m.createdAt)
            | none => acc
          else acc) acc =
        ((botMarkers botUserId ms).getLast?.map (fun nt => (some nt.1, some nt.2))).getD acc := by
  intro ms
  induction ms with
  | nil => intro acc; rfl
  | cons m ms ih =>
    intro acc
    by_cases hbot : m.authorId = botUserId
    · rcases hm : findMarker m.content with _ | n
      · have hB : botMarkers botUserId (m :: ms) = botMarkers botUserId ms := by
          simp [botMarkers, List.filterMap_cons, hbot, hm]
        rw [List.foldl_cons]
        simp only [hbot, if_true, hm]
        rw [ih acc, hB]
      · have hB : botMarkers botUserId (m :: ms) =
            (n, m.createdAt) :: botMarkers botUserId ms := by
          simp [botMarkers, List.filterMap_cons, hbot, hm]
        rw [List.foldl_cons]
        simp only [hbot, if_true, hm]
        rw [ih (some n, some m.createdAt), hB, getLast?_cons_eq]
        rcases hL : (botMarkers botUserId ms).getLast? with _ | nt
        · simp
        · simp
    · have hB : botMarkers botUserId (m :: ms) = botMarkers botUserId ms := by
        simp [botMarkers, List.filterMap_cons, hbot]
      rw [List.foldl_cons]
      simp only [hbot, if_false]
      rw [ih acc, hB]

/-- C1 (amended): `buildTranscript` derives `latestCheckinNumber` and
`latestCheckinTimestamp` from the chronologically last bot-authored marker
message (the last one scanned), not the maximum-numbered one, and they are
`none` exactly when no bot-authored marker message exists. -/
theorem buildTranscript_latest_eq_last_marker (pages : List (List RawMessage))
    (botUserId channelId channelName : String) :
    (buildTranscript pages botUserId channelId channelName).latestCheckinNumber =
      ((botMarkers botUserId (fetchAllMessages pages)).getLast?).map Prod.fst ∧
    (buildTranscript pages botUserId channelId channelName).latestCheckinTimestamp =
      ((botMarkers botUserId (fetchAllMessages pages)).getLast?).map Prod.snd := by
  have h := buildTranscript_scan_foldl botUserId (fetchAllMessages pages) (none, none)
  simp only [buildTranscript]
  rw [h]
  rcases hL : (botMarkers botUserId (fetchAllMessages pages)).getLast? with _ | nt
  · exact ⟨rfl, rfl⟩
  · exact ⟨rfl, rfl⟩

/-- C1 counterexample: with bot-authored markers numbered 2 (earlier) and
1 (later), the maximum is 2 but `buildTranscript` reports 1 — the claim that
`latestCheckinNumber` is the maximum marker number is false on the code. -/
theorem buildTranscript_latest_not_max :
    (buildTranscript
        [[⟨"1", "bot", "Poly", 0, "[POLY_CHECKIN #2]".toList⟩,
          ⟨"2", "bot", "Poly", 1, "[POLY_CHECKIN #1]".toList⟩]]
        "bot" "c" "control").latestCheckinNumber = some 1 ∧
    (botMarkers "bot" (fetchAllMessages
        [[⟨"1", "bot", "Poly", 0, "[POLY_CHECKIN #2]".toList⟩,
          ⟨"2", "bot", "Poly", 1, "[POLY_CHECKIN #1]".toList⟩]])).map Prod.fst = [2, 1] ∧
    ¬ (1 : Nat) = 2 := by decide

theorem base_le_foldl_max (l : List Nat) : ∀ a : Nat, a ≤ l.foldl Nat.max a := by
  induction l with
  | nil => intro a; exact Nat.le_refl a
  | cons x xs ih =>
    intro a
    exact Nat.le_trans (Nat.le_max_left a x) (ih (Nat.max a x))

theorem mem_le_foldl_max (l : List Nat) : ∀ (a x : Nat), x ∈ l → x ≤ l.foldl Nat.max a := by
  induction l with
  | nil => intro a x hx; simp at hx
  | cons y ys ih =>
    intro a x hx
    rcases List.mem_cons.mp hx with h1 | h2
    · subst h1
      exact Nat.le_trans (Nat.le_max_right a x) (base_le_foldl_max ys (Nat.max a x))
    · exact ih (Nat.max a y) x h2

theorem foldl_max_mem (l : List Nat) : ∀ a : Nat, l.foldl Nat.max a ∈ a :: l := by
  induction l with
  | nil => intro a; simp
  | cons x xs ih =>
    intro a
    have h := ih (Nat.max a x)
    rcases List.mem_cons.mp h with h1 | h2
    · rcases Nat.le_total a x with hax | hxa
      · have hm : Nat.max a x = x := by simp [Nat.max_def, hax]
        rw [List.foldl_cons, h1, hm]; simp
      · have hm : Nat.max a x = a ∨ Nat.max a x = x := by
          by_cases hax : a ≤ x
          · right; simp [Nat.max_def, hax]
          · left; simp [Nat.max_def, hax]
        rcases hm with hm | hm <;> rw [List.foldl_cons, h1, hm] <;> simp
    · simp [List.foldl_cons, List.mem_cons.mpr (Or.inr (List.mem_cons.mpr (Or.inr h2)))]

theorem detect_foldl_eq (botUserId : String) (ms : List TranscriptMessage) :
    ∀ a : Nat,
      ms.foldl (fun mx m =>
          if m.authorId = botUserId then
            match findMarker m.content with
            | some n => Nat.max mx n
            | none => mx
          else mx) a =
        (botMarkerVals botUserId ms).foldl Nat.max a := by
  induction ms with
  | nil => intro a; rfl
  | cons m ms ih =>
    intro a
    by_cases hbot : m.authorId = botUserId
    · rcases hm : findMarker m.content with _ | n
      · have hB : botMarkerVals botUserId (m :: ms) = botMarkerVals botUserId ms := by
          simp [botMarkerVals, List.filterMap_cons, hbot, hm]
        rw [List.foldl_cons]
        simp only [hbot, if_true, hm]
        rw [ih a, hB]
      · have hB : botMarkerVals botUserId (m :: ms) = n :: botMarkerVals botUserId ms := by
          simp [botMarkerVals, List.filterMap_cons, hbot, hm]
        rw [List.foldl_cons]
        simp only [hbot, if_true, hm]
        rw [ih (Nat.max a n), hB, List.foldl_cons]
    · have hB : botMarkerVals botUserId (m :: ms) = botMarkerVals botUserId ms := by
        simp [botMarkerVals, List.filterMap_cons, hbot]
      rw [List.foldl_cons]
      simp only [hbot, if_false]
      rw [ih a, hB]

/-- C3 (amended): `detectLastCheckinNumber` (current revision) returns the
maximum value of the machine-readable `[POLY_CHECKIN #N]` marker over
bot-authored messages only, and 0 when no bot-authored marker message exists;
the legacy `Check-in #N` phrase is no longer consulted. -/
theorem detectLastCheckinNumber_max_marker (pages : List (List RawMessage))
    (botUserId : String) :
    (∀ v ∈ botMarkerVals botUserId (fetchAllMessages pages),
      v ≤ detectLastCheckinNumber pages botUserId) ∧
    detectLastCheckinNumber pages botUserId ∈
      0 :: botMarkerVals botUserId (fetchAllMessages pages) ∧
    (botMarkerVals botUserId (fetchAllMessages pages) = [] →
      detectLastCheckinNumber pages botUserId = 0) := by
  have hd : detectLastCheckinNumber pages botUserId =
      (botMarkerVals botUserId (fetchAllMessages pages)).foldl Nat.max 0 := by
    unfold detectLastCheckinNumber
    exact detect_foldl_eq botUserId (fetchAllMessages pages) 0
  refine ⟨?_, ?_, ?_⟩
  · intro v hv
    rw [hd]
    exact mem_le_foldl_max _ 0 v hv
  · rw [hd]
    exact foldl_max_mem _ 0
  · intro hnil
    rw [hd, hnil]
    rfl

/-- C3 counterexample: a bot-authored message matching only the legacy
`Check-in #N` phrase is ignored by the current `detectLastCheckinNumber`,
which returns 0 where the claim (either pattern) requires 7. -/
theorem detectLastCheckinNumber_ignores_legacy :
    detectLastCheckinNumber [[⟨"1", "bot", "Poly", 0, "Check-in #7".toList⟩]] "bot" = 0 ∧
    findLegacyMarker (cleanContent "Check-in #7".toList) = some 7 ∧
    ¬ (0 : Nat) = 7 := by decide

/-- Witness for C3 at the spec scenario: bot markers 1 and 2 plus a non-bot
message containing marker 99 recover the counter 2. -/
theorem detectLastCheckinNumber_max_marker_witness :
    detectLastCheckinNumber
        [[⟨"1", "bot", "Poly", 0, "[POLY_CHECKIN #1]".toList⟩,
          ⟨"2", "bot", "Poly", 1, "[POLY_CHECKIN #2]".toList⟩,
          ⟨"3", "user", "U", 2, "[POLY_CHECKIN #99]".toList⟩]] "bot" = 2 ∧
    ∀ v ∈ botMarkerVals "bot" (fetchAllMessages
        [[⟨"1", "bot", "Poly", 0, "[POLY_CHECKIN #1]".toList⟩,
          ⟨"2", "bot", "Poly", 1, "[POLY_CHECKIN #2]".toList⟩,
          ⟨"3", "user", "U", 2, "[POLY_CHECKIN #99]".toList⟩]]),
      v ≤ detectLastCheckinNumber
        [[⟨"1", "bot", "Poly", 0, "[POLY_CHECKIN #1]".toList⟩,
          ⟨"2", "bot", "Poly", 1, "[POLY_CHECKIN #2]".toList⟩,
          ⟨"3", "user", "U", 2, "[POLY_CHECKIN #99]".toList⟩]] "bot" :=
  ⟨by decide, (detectLastCheckinNumber_max_marker _ "bot").1⟩

/-- C2: `parseStandbyDecision` is total: every input maps to exactly one
well-formed decision (a `reply` or an `escalate`), and whenever the input is
unparseable — no usable `ACTION` token, or `REPLY` claimed without a usable
`MESSAGE` payload — the result is the escalate fallback whose reason is the
parse-failure sentinel and whose draft is a prefix of the trimmed raw text
capped at 500 characters. -/
theorem parseStandbyDecision_total_fallback (raw : List Char) :
    ((∃ m, parseStandbyDecision raw = .reply m) ∨
      (∃ r d, parseStandbyDecision raw = .escalate r d)) ∧
    ((actionOf (jsTrim raw) = none ∨
        (actionOf (jsTrim raw) = some .reply ∧
          (messageOf (jsTrim raw) = none ∨ messageOf (jsTrim raw) = some []))) →
      parseStandbyDecision raw = .escalate parseFailReason ((jsTrim raw).take 500) ∧
      (jsTrim raw).take 500 <+: jsTrim raw ∧ ((jsTrim raw).take 500).length ≤ 500) := by
  constructor
  · cases h : parseStandbyDecision raw with
    | reply m => exact Or.inl ⟨m, rfl⟩
    | escalate r d => exact Or.inr ⟨r, d, rfl⟩
  · intro hbad
    refine ⟨?_, List.take_prefix 500 _, by simp [List.length_take]⟩
    rcases hbad with ha | ⟨ha, hm⟩
    · simp [parseStandbyDecision, ha, parseFallback]
    · rcases hm with hm | hm
      · simp [parseStandbyDecision, ha, hm, parseFallback]
      · simp [parseStandbyDecision, ha, hm, parseFallback]

/-- Witness for C2 at the spec scenario input, which has no `ACTION` token. -/
theorem parseStandbyDecision_total_fallback_witness :
    parseStandbyDecision "I think escalate? not sure".toList =
      .escalate parseFailReason ((jsTrim "I think escalate? not sure".toList).take 500) ∧
    (jsTrim "I think escalate? not sure".toList).take 500 <+:
      jsTrim "I think escalate? not sure".toList ∧
    ((jsTrim "I think escalate? not sure".toList).take 500).length ≤ 500 :=
  (parseStandbyDecision_total_fallback _).2 (Or.inl (by decide))

/-- C7 counterexample: a whitespace-only (yet non-empty) payload after
`MESSAGE:` is trimmed away, so the parser returns the escalate fallback
rather than `Reply{" "}` — the round-trip claim fails for arbitrary
non-empty payloads. -/
theorem parseStandbyDecision_round_trip_fails :
    " ".toList ≠ [] ∧
    parseStandbyDecision ("ACTION: REPLY\nMESSAGE: ".toList ++ " ".toList) ≠
      StandbyDecision.reply " ".toList := by decide

theorem getLast?_append_right {α : Type} {l₂ : List α} (l₁ : List α) (h : l₂ ≠ []) :
    (l₁ ++ l₂).getLast? = l₂.getLast? := by
  induction l₁ with
  | nil => rfl
  | cons c cs ih =>
    rw [List.cons_append, getLast?_cons_eq, ih]
    rcases l₂ with _ | ⟨y, ys⟩
    · exact absurd rfl h
    · rw [getLast?_cons_eq]; simp

theorem suffix_head_mem {α : Type} {q : List α} {c : α} {u' : List α}
    (hsuf : (c :: u') <:+ q) : c ∈ q := by
  obtain ⟨v, hv⟩ := hsuf
  rw [← hv]
  simp

theorem suffix_append_cases {α : Type} {u a b : List α} (h : u <:+ a ++ b) :
    u <:+ b ∨ ∃ u1, u1 ≠ [] ∧ u1 <:+ a ∧ u = u1 ++ b := by
  induction a with
  | nil => exact Or.inl (by simpa using h)
  | cons c cs ih =>
    rw [List.cons_append] at h
    rcases List.suffix_cons_iff.mp h with h1 | h2
    · right
      exact ⟨c :: cs, by simp, List.suffix_rfl, by simpa using h1⟩
    · rcases ih h2 with h3 | ⟨u1, hne, hsuf, heq⟩
      · exact Or.inl h3
      · exact Or.inr ⟨u1, hne, hsuf.trans (List.suffix_cons c cs), heq⟩

theorem parse_reply_template (s : List Char) (hs0 : s ≠ [])
    (hs1 : ∀ c, s.head? = some c → isWs c = false)
    (hs2 : ∀ c, s.getLast? = some c → isWs c = false) :
    parseStandbyDecision ("ACTION: REPLY\nMESSAGE: ".toList ++ s) = .reply s := by
  have htrim : jsTrim ("ACTION: REPLY\nMESSAGE: ".toList ++ s) =
      "ACTION: REPLY\nMESSAGE: ".toList ++ s := by
    apply jsTrim_eq_self
    · intro c hc
      have hh : ("ACTION: REPLY\nMESSAGE: ".toList ++ s).head? = some 'A' := rfl
      rw [hh] at hc
      injection hc with hc'
      rw [← hc']
      decide
    · intro c hc
      rw [getLast?_append_right _ hs0] at hc
      exact hs2 c hc
  have h1 : matchLiteralCI "ACTION:".toList ("ACTION: REPLY\nMESSAGE: ".toList ++ s) =
      some (" REPLY\nMESSAGE: ".toList ++ s) :=
    matchLiteralCI_append s (by decide)
  have h2 : (" REPLY\nMESSAGE: ".toList ++ s).dropWhile isWs =
      "REPLY\nMESSAGE: ".toList ++ s := by
    rw [dropWhile_append_of_ne_nil s (by decide)]
    rw [show (" REPLY\nMESSAGE: ".toList).dropWhile isWs = "REPLY\nMESSAGE: ".toList
      from by decide]
  have h3 : (matchLiteralCI "REPLY".toList ("REPLY\nMESSAGE: ".toList ++ s)).isSome = true := by
    rw [matchLiteralCI_append s
      (show matchLiteralCI "REPLY".toList "REPLY\nMESSAGE: ".toList =
        some "\nMESSAGE: ".toList from by decide)]
    rfl
  have haction : actionOf ("ACTION: REPLY\nMESSAGE: ".toList ++ s) = some .reply := by
    unfold actionOf
    apply findFirst_pos_zero
    unfold matchActionAt
    rw [h1]
    simp only [h2, h3, if_true]
  have hnone : ∀ u, u ≠ [] → u <:+ "ACTION: REPLY\n".toList →
      matchLiteralCI "MESSAGE:".toList (u ++ ("MESSAGE: ".toList ++ s)) = none := by
    have hall : ∀ x ∈ "ACTION: REPLY\n".toList, ciEq 'M' x = false := by decide
    intro u hu hsuf
    rcases u with _ | ⟨c, u'⟩
    · exact absurd rfl hu
    · have hci : ciEq 'M' c = false := hall c (suffix_head_mem hsuf)
      rw [show "MESSAGE:".toList = 'M' :: "ESSAGE:".toList from by decide, List.cons_append]
      exact matchLiteralCI_head_ne hci
  have hmsg : messageOf ("ACTION: REPLY\nMESSAGE: ".toList ++ s) = some s := by
    rw [messageOf,
      show "ACTION: REPLY\nMESSAGE: ".toList ++ s =
        "ACTION: REPLY\n".toList ++ ("MESSAGE: ".toList ++ s) from by
          rw [← List.append_assoc]
          rw [show "ACTION: REPLY\n".toList ++ "MESSAGE: ".toList =
            "ACTION: REPLY\nMESSAGE: ".toList from by decide]]
    rw [findFirst_append_left _ hnone]
    have hft : matchLiteralCI "MESSAGE:".toList ("MESSAGE: ".toList ++ s) = some (' ' :: s) := by
      have := matchLiteralCI_append s
        (show matchLiteralCI "MESSAGE:".toList "MESSAGE: ".toList = some " ".toList
          from by decide)
      simpa using this
    rw [findFirst_pos_zero hft]
    show some (jsTrim (' ' :: s)) = some s
    rw [jsTrim_cons_of_ws (by decide), jsTrim_eq_self hs1 hs2]
  rw [parseStandbyDecision, htrim, haction, hmsg]
  simp [List.isEmpty_iff, hs0]

theorem parse_escalate_template (r d : List Char)
    (hr0 : r ≠ [])
    (hr1 : ∀ c, r.head? = some c → isWs c = false)
    (hr2 : ∀ c, r.getLast? = some c → isWs c = false)
    (hrn : ∀ c ∈ r, ¬ c = '\n')
    (hrd : findFirst (matchLiteralCI "DRAFT:".toList) r = none)
    (hd0 : d ≠ [])
    (hd1 : ∀ c, d.head? = some c → isWs c = false)
    (hd2 : ∀ c, d.getLast? = some c → isWs c = false) :
    parseStandbyDecision
        ("ACTION: ESCALATE\nREASON: ".toList ++ r ++ "\nDRAFT: ".toList ++ d) =
      .escalate r d := by
  simp only [List.append_assoc]
  have hznn : r ++ ("\nDRAFT: ".toList ++ d) ≠ [] := by
    rcases r with _ | ⟨rc, r'⟩
    · exact absurd rfl hr0
    · simp
  have htrim : jsTrim ("ACTION: ESCALATE\nREASON: ".toList ++ (r ++ ("\nDRAFT: ".toList ++ d))) =
      "ACTION: ESCALATE\nREASON: ".toList ++ (r ++ ("\nDRAFT: ".toList ++ d)) := by
    apply jsTrim_eq_self
    · intro c hc
      have hh : ("ACTION: ESCALATE\nREASON: ".toList ++
          (r ++ ("\nDRAFT: ".toList ++ d))).head? = some 'A' := rfl
      rw [hh] at hc
      injection hc with hc'
      rw [← hc']
      decide
    · intro c hc
      rw [getLast?_append_right _ hznn,
        getLast?_append_right _ (by simp),
        getLast?_append_right _ hd0] at hc
      exact hd2 c hc
  have h1 : matchLiteralCI "ACTION:".toList
      ("ACTION: ESCALATE\nREASON: ".toList ++ (r ++ ("\nDRAFT: ".toList ++ d))) =
      some (" ESCALATE\nREASON: ".toList ++ (r ++ ("\nDRAFT: ".toList ++ d))) :=
    matchLiteralCI_append _ (by decide)
  have h2 : (" ESCALATE\nREASON: ".toList ++ (r ++ ("\nDRAFT: ".toList ++ d))).dropWhile isWs =
      "ESCALATE\nREASON: ".toList ++ (r ++ ("\nDRAFT: ".toList ++ d)) := by
    rw [dropWhile_append_of_ne_nil _ (by decide)]
    rw [show (" ESCALATE\nREASON: ".toList).dropWhile isWs = "ESCALATE\nREASON: ".toList
      from by decide]
  have h3 : matchLiteralCI "REPLY".toList
      ("ESCALATE\nREASON: ".toList ++ (r ++ ("\nDRAFT: ".toList ++ d))) = none := by
    rw [show "REPLY".toList = 'R' :: "EPLY".toList from by decide,
      show "ESCALATE\nREASON: ".toList ++ (r ++ ("\nDRAFT: ".toList ++ d)) =
        'E' :: ("SCALATE\nREASON: ".toList ++ (r ++ ("\nDRAFT: ".toList ++ d))) from rfl]
    exact matchLiteralCI_head_ne (by decide)
  have h4 : matchLiteralCI "ESCALATE".toList
      ("ESCALATE\nREASON: ".toList ++ (r ++ ("\nDRAFT: ".toList ++ d))) =
      some ("\nREASON: ".toList ++ (r ++ ("\nDRAFT: ".toList ++ d))) :=
    matchLiteralCI_append _ (by decide)
  have haction : actionOf
      ("ACTION: ESCALATE\nREASON: ".toList ++ (r ++ ("\nDRAFT: ".toList ++ d))) =
      some .escalate := by
    unfold actionOf
    apply findFirst_pos_zero
    unfold matchActionAt
    rw [h1]
    simp only [h2, h3, h4, Option.isSome_none, Option.isSome_some, Bool.false_eq_true,
      if_false, if_true]
  obtain ⟨rc, r', hr⟩ : ∃ rc r', r = rc :: r' := by
    rcases r with _ | ⟨rc, r'⟩
    · exact absurd rfl hr0
    · exact ⟨rc, r', rfl⟩
  have hrcws : isWs rc = false := hr1 rc (by rw [hr]; rfl)
  have hnotnl : ∀ x ∈ r, notNl x = true := by
    intro x hx
    have := hrn x hx
    simp [notNl, this]
  have htake : List.takeWhile notNl (r ++ ("\nDRAFT: ".toList ++ d)) = r := by
    have hsh : r ++ ("\nDRAFT: ".toList ++ d) = r ++ '\n' :: ("DRAFT: ".toList ++ d) := rfl
    rw [hsh]
    exact takeWhile_append_stop _ hnotnl (by decide)
  have hzr : reasonGroup (r ++ ("\nDRAFT: ".toList ++ d)) = some r := by
    conv_lhs => rw [hr, List.cons_append]
    unfold reasonGroup
    simp only [hrcws, Bool.false_eq_true, if_false]
    rw [← List.cons_append, ← hr, htake]
  have hallR : ∀ x ∈ "ACTION: ESCALATE\n".toList, ciEq 'R' x = false := by decide
  have hnoneR : ∀ u, u ≠ [] → u <:+ "ACTION: ESCALATE\n".toList →
      matchReasonAt (u ++ ("REASON: ".toList ++ (r ++ ("\nDRAFT: ".toList ++ d)))) = none := by
    intro u hu hsuf
    rcases u with _ | ⟨c, u'⟩
    · exact absurd rfl hu
    · have hci : ciEq 'R' c = false := hallR c (suffix_head_mem hsuf)
      unfold matchReasonAt
      rw [show "REASON:".toList = 'R' :: "EASON:".toList from by decide, List.cons_append,
        matchLiteralCI_head_ne hci]
  have hft : matchReasonAt ("REASON: ".toList ++ (r ++ ("\nDRAFT: ".toList ++ d))) =
      some r := by
    unfold matchReasonAt
    rw [matchLiteralCI_append _
      (show matchLiteralCI "REASON:".toList "REASON: ".toList = some " ".toList
        from by decide)]
    show reasonGroup (' ' :: (r ++ ("\nDRAFT: ".toList ++ d))) = some r
    unfold reasonGroup
    simp only [show isWs ' ' = true from rfl, if_true]
    rw [hzr]
  have hreason : reasonOf
      ("ACTION: ESCALATE\nREASON: ".toList ++ (r ++ ("\nDRAFT: ".toList ++ d))) = r := by
    unfold reasonOf
    rw [show "ACTION: ESCALATE\nREASON: ".toList ++ (r ++ ("\nDRAFT: ".toList ++ d)) =
        "ACTION: ESCALATE\n".toList ++ ("REASON: ".toList ++ (r ++ ("\nDRAFT: ".toList ++ d)))
      from by
        conv_rhs => rw [← List.append_assoc]
        rw [show "ACTION: ESCALATE\n".toList ++ "REASON: ".toList =
          "ACTION: ESCALATE\nREASON: ".toList from by decide]]
    rw [findFirst_append_left _ hnoneR, findFirst_pos_zero hft]
    show jsTrim r = r
    exact jsTrim_eq_self hr1 hr2
  have hallD : ∀ x ∈ "ACTION: ESCALATE\nREASON: ".toList, ciEq 'D' x = false := by decide
  have hnoneD : ∀ u, u ≠ [] →
      u <:+ ("ACTION: ESCALATE\nREASON: ".toList ++ (r ++ ['\n'])) →
      matchLiteralCI "DRAFT:".toList (u ++ ("DRAFT: ".toList ++ d)) = none := by
    intro u hu hsuf
    rcases suffix_append_cases hsuf with hcase | ⟨u1, hu1ne, hu1suf, hueq⟩
    · rcases suffix_append_cases hcase with hc2 | ⟨u2, hu2ne, hu2suf, hueq2⟩
      · rcases List.suffix_cons_iff.mp hc2 with h1 | h2
        · rw [h1, List.cons_append,
            show "DRAFT:".toList = 'D' :: "RAFT:".toList from by decide]
          exact matchLiteralCI_head_ne (by decide)
        · exact absurd (List.suffix_nil.mp h2) hu
      · rw [hueq2, List.append_assoc]
        have hstop := matchLiteralCI_append_newline_none
          (p := "DRAFT:".toList) (a := u2) ("DRAFT: ".toList ++ d) (by decide)
          (findFirst_eq_none_iff.mp hrd u2 hu2suf)
        simpa using hstop
    · rcases u1 with _ | ⟨c, u1'⟩
      · exact absurd rfl hu1ne
      · have hci : ciEq 'D' c = false := hallD c (suffix_head_mem hu1suf)
        rw [hueq, List.cons_append, List.cons_append,
          show "DRAFT:".toList = 'D' :: "RAFT:".toList from by decide]
        exact matchLiteralCI_head_ne hci
  have hfd : matchLiteralCI "DRAFT:".toList ("DRAFT: ".toList ++ d) = some (' ' :: d) := by
    have := matchLiteralCI_append d
      (show matchLiteralCI "DRAFT:".toList "DRAFT: ".toList = some " ".toList
        from by decide)
    simpa using this
  have hdraft : draftOf
      ("ACTION: ESCALATE\nREASON: ".toList ++ (r ++ ("\nDRAFT: ".toList ++ d))) = d := by
    unfold draftOf
    rw [show "ACTION: ESCALATE\nREASON: ".toList ++ (r ++ ("\nDRAFT: ".toList ++ d)) =
        ("ACTION: ESCALATE\nREASON: ".toList ++ (r ++ ['\n'])) ++ ("DRAFT: ".toList ++ d)
      from by
        rw [List.append_assoc, List.append_assoc]
        rfl]
    rw [findFirst_append_left _ hnoneD, findFirst_pos_zero hfd]
    show jsTrim (' ' :: d) = d
    rw [jsTrim_cons_of_ws (by decide)]
    exact jsTrim_eq_self hd1 hd2
  rw [parseStandbyDecision, htrim, haction, hreason, hdraft]

/-- C7 (amended): the decision-grammar round-trip holds for payloads in the
shape the decision grammar produces: for every non-empty `s` that neither
starts nor ends with whitespace, `ACTION: REPLY\nMESSAGE: <s>` parses to
`Reply{s}`; and for every non-empty trimmed single-line `r` containing no
case-insensitive `DRAFT:` occurrence, and every non-empty trimmed `d`,
`ACTION: ESCALATE\nREASON: <r>\nDRAFT: <d>` parses to `Escalate{r, d}`.
(Surrounding whitespace is trimmed away by the parser and a whitespace-only
message falls through to the escalate fallback, so the round-trip fails for
arbitrary payload strings.) -/
theorem parseStandbyDecision_round_trip (s r d : List Char)
    (hs0 : s ≠ [])
    (hs1 : ∀ c, s.head? = some c → isWs c = false)
    (hs2 : ∀ c, s.getLast? = some c → isWs c = false)
    (hr0 : r ≠ [])
    (hr1 : ∀ c, r.head? = some c → isWs c = false)
    (hr2 : ∀ c, r.getLast? = some c → isWs c = false)
    (hrn : ∀ c ∈ r, ¬ c = '\n')
    (hrd : findFirst (matchLiteralCI "DRAFT:".toList) r = none)
    (hd0 : d ≠ [])
    (hd1 : ∀ c, d.head? = some c → isWs c = false)
    (hd2 : ∀ c, d.getLast? = some c → isWs c = false) :
    parseStandbyDecision ("ACTION: REPLY\nMESSAGE: ".toList ++ s) =
      StandbyDecision.reply s ∧
    parseStandbyDecision
        ("ACTION: ESCALATE\nREASON: ".toList ++ r ++ "\nDRAFT: ".toList ++ d) =
      StandbyDecision.escalate r d :=
  ⟨parse_reply_template s hs0 hs1 hs2,
    parse_escalate_template r d hr0 hr1 hr2 hrn hrd hd0 hd1 hd2⟩

/-- Witness for C7 at the spec scenario payloads. -/
theorem parseStandbyDecision_round_trip_witness :
    parseStandbyDecision ("ACTION: REPLY\nMESSAGE: ".toList ++ "We are on track.".toList) =
      StandbyDecision.reply "We are on track.".toList ∧
    parseStandbyDecision
        ("ACTION: ESCALATE\nREASON: ".toList ++ "stuck on deploy".toList ++
          "\nDRAFT: ".toList ++ "Try redeploying.".toList) =
      StandbyDecision.escalate "stuck on deploy".toList "Try redeploying.".toList :=
  parseStandbyDecision_round_trip "We are on track.".toList "stuck on deploy".toList
    "Try redeploying.".toList
    (by decide)
    (by intro c hc; have hc2 : some 'W' = some c := hc; injection hc2 with h; rw [← h]; decide)
    (by intro c hc; have hc2 : some '.' = some c := hc; injection hc2 with h; rw [← h]; decide)
    (by decide)
    (by intro c hc; have hc2 : some 's' = some c := hc; injection hc2 with h; rw [← h]; decide)
    (by intro c hc; have hc2 : some 'y' = some c := hc; injection hc2 with h; rw [← h]; decide)
    (by decide)
    (by decide)
    (by decide)
    (by intro c hc; have hc2 : some 'T' = some c := hc; injection hc2 with h; rw [← h]; decide)
    (by intro c hc; have hc2 : some '.' = some c := hc; injection hc2 with h; rw [← h]; decide)

/-- Newline-separated tail: each line preceded by one line break. -/
def nlTail : List (List Char) → List Char
  | [] => []
  | l :: ls => '\n' :: (l ++ nlTail ls)

/-- Join lines with single line breaks (inverse of `splitLinesJS`). -/
def intercalateNL : List (List Char) → List Char
  | [] => []
  | l :: ls => l ++ nlTail ls

theorem splitLinesJS_ne_nil (t : List Char) : splitLinesJS t ≠ [] := by
  cases t with
  | nil => simp [splitLinesJS]
  | cons c cs =>
    unfold splitLinesJS
    by_cases hc : c = '\n'
    · simp [hc]
    · simp only [hc, if_false]
      rcases splitLinesJS cs with _ | ⟨l, ls⟩ <;> simp

theorem intercalateNL_splitLinesJS (t : List Char) : intercalateNL (splitLinesJS t) = t := by
  induction t with
  | nil => rfl
  | cons c cs ih =>
    unfold splitLinesJS
    by_cases hc : c = '\n'
    · subst hc
      simp only [if_pos rfl]
      rcases hsp : splitLinesJS cs with _ | ⟨l, ls⟩
      · exact absurd hsp (splitLinesJS_ne_nil cs)
      · show '\n' :: (l ++ nlTail ls) = '\n' :: cs
        have h2 : intercalateNL (l :: ls) = cs := hsp ▸ ih
        exact congrArg _ h2
    · simp only [hc, if_false]
      rcases hsp : splitLinesJS cs with _ | ⟨l, ls⟩
      · exact absurd hsp (splitLinesJS_ne_nil cs)
      · show (c :: l) ++ nlTail ls = c :: cs
        have h2 : intercalateNL (l :: ls) = cs := hsp ▸ ih
        rw [List.cons_append]
        exact congrArg _ h2

theorem nljoin_nl_cons {ps : List (List Char)} {t : List Char} (h : NLJoin ps t) :
    NLJoin ps ('\n' :: t) := by
  cases h with
  | nil =>
    rename_i hs
    refine NLJoin.nil ('\n' :: t) ?_
    intro c hc
    rcases List.mem_cons.mp hc with h1 | h1
    · exact h1
    · exact hs c h1
  | cons s p ps' t' hs ht =>
    have hsh : '\n' :: (s ++ p ++ t') = ('\n' :: s) ++ p ++ t' := rfl
    rw [hsh]
    refine NLJoin.cons ('\n' :: s) p ps' t' ?_ ht
    intro c hc
    rcases List.mem_cons.mp hc with h1 | h1
    · exact h1
    · exact hs c h1

theorem nljoin_nl_run {ps : List (List Char)} {t : List Char} (s : List Char)
    (hs : ∀ c ∈ s, c = '\n') (h : NLJoin ps t) : NLJoin ps (s ++ t) := by
  induction s with
  | nil => simpa using h
  | cons c cs ih =>
    have hc : c = '\n' := hs c (by simp)
    rw [List.cons_append, hc]
    exact nljoin_nl_cons (ih (fun x hx => hs x (by simp [hx])))

theorem nljoin_append {ps qs : List (List Char)} {t u : List Char}
    (h1 : NLJoin ps t) (h2 : NLJoin qs u) : NLJoin (ps ++ qs) (t ++ u) := by
  induction h1 with
  | nil s hs => simpa using nljoin_nl_run s hs h2
  | cons s p ps' t' hs ht ih =>
    have hsh : ((s ++ p) ++ t') ++ u = (s ++ p) ++ (t' ++ u) := by
      rw [List.append_assoc]
    rw [List.cons_append, show (s ++ p ++ t') ++ u = s ++ p ++ (t' ++ u) from hsh]
    exact NLJoin.cons s p (ps' ++ qs) (t' ++ u) hs ih

theorem nljoin_single (p : List Char) : NLJoin [p] p := by
  have h := NLJoin.cons [] p [] [] (by simp) (NLJoin.nil [] (by simp))
  simpa using h

theorem nljoin_of_join {ps : List (List Char)} {t : List Char} (h : ps.flatten = t) :
    NLJoin ps t := by
  induction ps generalizing t with
  | nil =>
    rw [← h]
    exact NLJoin.nil [] (by simp)
  | cons p ps ih =>
    rw [← h]
    have hsh : (p :: ps).flatten = ([] ++ p) ++ ps.flatten := by simp
    rw [hsh]
    exact NLJoin.cons [] p ps ps.flatten (by simp) (ih rfl)

theorem hardChunks_join_aux (m : Nat) (hm : 0 < m) :
    ∀ n : Nat, ∀ s : List Char, s.length ≤ n → (hardChunks m s).flatten = s := by
  intro n
  induction n with
  | zero =>
    intro s hs
    have hnil : s = [] := List.length_eq_zero.mp (Nat.le_zero.mp hs)
    subst hnil
    rw [hardChunks]
    simp
  | succ n ih =>
    intro s hs
    by_cases hse : s.isEmpty
    · have hnil : s = [] := List.isEmpty_iff.mp hse
      subst hnil
      rw [hardChunks]
      simp
    · have hm0 : ¬ m = 0 := Nat.pos_iff_ne_zero.mp hm
      have hslen : 0 < s.length := by
        rcases s with _ | ⟨c, cs⟩
        · simp at hse
        · simp
      have hd : (s.drop m).length ≤ n := by
        rw [List.length_drop]
        omega
      rw [hardChunks, dif_neg hse, dif_neg hm0, List.flatten_cons, ih (s.drop m) hd,
        List.take_append_drop]

theorem hardChunks_join (m : Nat) (hm : 0 < m) (s : List Char) :
    (hardChunks m s).flatten = s :=
  hardChunks_join_aux m hm s.length s (Nat.le_refl _)

theorem hardChunks_length_aux (m : Nat) :
    ∀ n : Nat, ∀ s : List Char, s.length ≤ n → 0 < m →
      ∀ p ∈ hardChunks m s, p.length ≤ m := by
  intro n
  induction n with
  | zero =>
    intro s hs hm p hp
    have hnil : s = [] := List.length_eq_zero.mp (Nat.le_zero.mp hs)
    subst hnil
    rw [hardChunks] at hp
    simp at hp
  | succ n ih =>
    intro s hs hm p hp
    by_cases hse : s.isEmpty
    · have hnil : s = [] := List.isEmpty_iff.mp hse
      subst hnil
      rw [hardChunks] at hp
      simp at hp
    · have hm0 : ¬ m = 0 := Nat.pos_iff_ne_zero.mp hm
      rw [hardChunks, dif_neg hse, dif_neg hm0] at hp
      simp only [List.mem_cons] at hp
      rcases hp with hp | hp
      · rw [hp]
        simp [List.length_take]
      · have hslen : 0 < s.length := by
          rcases s with _ | ⟨c, cs⟩
          · simp at hse
          · simp
        refine ih (s.drop m) ?_ hm p hp
        rw [List.length_drop]
        omega

theorem hardChunks_length (m : Nat) (hm : 0 < m) (s : List Char) :
    ∀ p ∈ hardChunks m s, p.length ≤ m :=
  hardChunks_length_aux m s.length s (Nat.le_refl _) hm

theorem nljoin_nlTail {ps ls : List (List Char)}
    (h : NLJoin ps (intercalateNL ls)) : NLJoin ps (nlTail ls) := by
  cases ls with
  | nil => simpa [nlTail, intercalateNL] using h
  | cons l ls' =>
    have hsh : nlTail (l :: ls') = '\n' :: intercalateNL (l :: ls') := rfl
    rw [hsh]
    exact nljoin_nl_cons h

theorem splitLoop_nljoin (m : Nat) (hm : 0 < m) :
    ∀ (lines : List (List Char)) (current : List Char),
      NLJoin (splitLoop m lines current)
        (if current.isEmpty then intercalateNL lines else current ++ nlTail lines) := by
  intro lines
  induction lines with
  | nil =>
    intro current
    by_cases hc : current.isEmpty
    · rw [splitLoop, if_pos hc, if_pos hc]
      exact NLJoin.nil [] (by simp)
    · rw [splitLoop, if_neg hc, if_neg hc]
      simpa [nlTail] using nljoin_single current
  | cons line rest ih =>
    intro current
    have hrest0 : NLJoin (splitLoop m rest []) (intercalateNL rest) := by
      simpa using ih []
    have hrestT : NLJoin (splitLoop m rest []) (nlTail rest) := nljoin_nlTail hrest0
    rw [splitLoop]
    by_cases hcond : current.length + 1 + line.length > m
    · rw [if_pos hcond]
      by_cases hline : line.length > m
      · rw [if_pos hline]
        have hhard : NLJoin (hardChunks m line) line :=
          nljoin_of_join (hardChunks_join m hm line)
        have hmid : NLJoin (hardChunks m line ++ splitLoop m rest []) (line ++ nlTail rest) :=
          nljoin_append hhard hrestT
        by_cases hc : current.isEmpty
        · rw [if_pos hc, if_pos hc, List.nil_append]
          show NLJoin (hardChunks m line ++ splitLoop m rest []) (line ++ nlTail rest)
          exact hmid
        · rw [if_neg hc, if_neg hc]
          have h2 := nljoin_append (nljoin_single current) (nljoin_nl_cons hmid)
          show NLJoin ([current] ++ (hardChunks m line ++ splitLoop m rest []))
            (current ++ ('\n' :: (line ++ nlTail rest)))
          exact h2
      · rw [if_neg hline]
        by_cases hc : current.isEmpty
        · have hcur : current = [] := List.isEmpty_iff.mp hc
          subst hcur
          have hlm : line.length = m := by
            simp only [List.length_nil] at hcond
            omega
          have hlne : line.isEmpty = false := by
            rcases line with _ | ⟨x, xs⟩
            · simp at hlm
              omega
            · simp
          rw [if_pos hc, if_pos hc, List.nil_append]
          have h3 := ih line
          rw [if_neg (by simp [hlne])] at h3
          show NLJoin (splitLoop m rest line) (line ++ nlTail rest)
          exact h3
        · rw [if_neg hc, if_neg hc]
          by_cases hle : line.isEmpty
          · have hlnil : line = [] := List.isEmpty_iff.mp hle
            subst hlnil
            have h2 := nljoin_append (nljoin_single current) (nljoin_nl_cons hrestT)
            show NLJoin ([current] ++ splitLoop m rest []) (current ++ ('\n' :: nlTail rest))
            simpa using h2
          · have h3 := ih line
            rw [if_neg (by simp_all)] at h3
            have h2 := nljoin_append (nljoin_single current) (nljoin_nl_cons h3)
            show NLJoin ([current] ++ splitLoop m rest line)
              (current ++ ('\n' :: (line ++ nlTail rest)))
            exact h2
    · rw [if_neg hcond]
      by_cases hc : current.isEmpty
      · rw [if_pos hc, if_pos hc]
        by_cases hle : line.isEmpty
        · have hlnil : line = [] := List.isEmpty_iff.mp hle
          subst hlnil
          show NLJoin (splitLoop m rest []) (intercalateNL ([] :: rest))
          show NLJoin (splitLoop m rest []) ([] ++ nlTail rest)
          rw [List.nil_append]
          exact hrestT
        · have h3 := ih line
          rw [if_neg (by simp_all)] at h3
          show NLJoin (splitLoop m rest line) (intercalateNL (line :: rest))
          exact h3
      · rw [if_neg hc, if_neg hc]
        have hcne : current ≠ [] := by
          intro hx
          rw [hx] at hc
          simp at hc
        have hcurne : (current ++ '\n' :: line).isEmpty = false := by
          rcases current with _ | ⟨x, xs⟩
          · exact absurd rfl hcne
          · simp
        have h3 := ih (current ++ '\n' :: line)
        rw [if_neg (by simp [hcurne])] at h3
        rw [List.append_assoc, List.cons_append] at h3
        show NLJoin (splitLoop m rest (current ++ '\n' :: line))
          (current ++ ('\n' :: (line ++ nlTail rest)))
        exact h3

theorem splitLoop_length (m : Nat) (hm : 0 < m) :
    ∀ (lines : List (List Char)) (current : List Char), current.length ≤ m →
      ∀ p ∈ splitLoop m lines current, p.length ≤ m := by
  intro lines
  induction lines with
  | nil =>
    intro current hcur p hp
    rw [splitLoop] at hp
    by_cases hc : current.isEmpty
    · rw [if_pos hc] at hp
      simp at hp
    · rw [if_neg hc] at hp
      simp only [List.mem_singleton] at hp
      rw [hp]
      exact hcur
  | cons line rest ih =>
    intro current hcur p hp
    rw [splitLoop] at hp
    by_cases hcond : current.length + 1 + line.length > m
    · rw [if_pos hcond] at hp
      rcases List.mem_append.mp hp with hp1 | hp2
      · by_cases hc : current.isEmpty
        · rw [if_pos hc] at hp1
          simp at hp1
        · rw [if_neg hc] at hp1
          simp only [List.mem_singleton] at hp1
          rw [hp1]
          exact hcur
      · by_cases hline : line.length > m
        · rw [if_pos hline] at hp2
          rcases List.mem_append.mp hp2 with hp3 | hp4
          · exact hardChunks_length m hm line p hp3
          · exact ih [] (by simp) p hp4
        · rw [if_neg hline] at hp2
          exact ih line (by omega) p hp2
    · rw [if_neg hcond] at hp
      by_cases hc : current.isEmpty
      · rw [if_pos hc] at hp
        have hcur2 : line.length ≤ m := by
          have hc0 : current = [] := List.isEmpty_iff.mp hc
          rw [hc0] at hcond
          simp only [List.length_nil] at hcond
          omega
        exact ih line hcur2 p hp
      · rw [if_neg hc] at hp
        have hcur2 : (current ++ '\n' :: line).length ≤ m := by
          simp only [List.length_append, List.length_cons]
          omega
        exact ih (current ++ '\n' :: line) hcur2 p hp

/-- C6 (amended): every chunk returned by `splitForDiscord` has length at most
the maximum, and the chunks preserve the non-newline content in order: the
input text is the chunks concatenated in order with (possibly empty) runs of
newline characters before, between and after them.  (The exact round-trip
fails: line breaks adjacent to chunk boundaries — leading, trailing, or from
empty lines next to a flushed chunk — are dropped from the chunks.) -/
theorem splitForDiscord_spec (m : Nat) (text : List Char) (hm : 0 < m) :
    NLJoin (splitForDiscord m text) text ∧
    ∀ p ∈ splitForDiscord m text, p.length ≤ m := by
  unfold splitForDiscord
  by_cases hlen : text.length ≤ m
  · rw [if_pos hlen]
    refine ⟨nljoin_single text, ?_⟩
    intro p hp
    simp only [List.mem_singleton] at hp
    rw [hp]
    exact hlen
  · rw [if_neg hlen]
    constructor
    · have h := splitLoop_nljoin m hm (splitLinesJS text) []
      simp only [List.isEmpty_nil, if_true] at h
      rw [intercalateNL_splitLinesJS] at h
      exact h
    · exact splitLoop_length m hm _ [] (by simp)

/-- Witness for C6 at a concrete maximum length and text. -/
theorem splitForDiscord_spec_witness :
    NLJoin (splitForDiscord 1900 "alpha\nbeta".toList) "alpha\nbeta".toList ∧
    ∀ p ∈ splitForDiscord 1900 "alpha\nbeta".toList, p.length ≤ 1900 :=
  splitForDiscord_spec 1900 "alpha\nbeta".toList (by decide)

/-- C6 counterexample: a 1901-character text consisting of a line break
followed by 1900 `a` characters is split into a single chunk that has lost
the leading line break, so no restoration of line breaks between the chunks
reconstructs the input exactly. -/
theorem splitLinesJS_no_newline {s : List Char} (h : ∀ c ∈ s, ¬ c = '\n') :
    splitLinesJS s = [s] := by
  induction s with
  | nil => rfl
  | cons c cs ih =>
    rw [splitLinesJS, if_neg (h c (by simp)), ih (fun x hx => h x (by simp [hx]))]

theorem splitForDiscord_not_exact :
    splitForDiscord 1900 ('\n' :: List.replicate 1900 'a') = [List.replicate 1900 'a'] ∧
    (splitForDiscord 1900 ('\n' :: List.replicate 1900 'a')).flatten ≠
      '\n' :: List.replicate 1900 'a' := by
  have hlines : splitLinesJS ('\n' :: List.replicate 1900 'a') =
      [[], List.replicate 1900 'a'] := by
    rw [splitLinesJS, if_pos rfl,
      splitLinesJS_no_newline (fun c hc => by rw [List.eq_of_mem_replicate hc]; decide)]
  have hlen : (List.replicate 1900 'a').length = 1900 := List.length_replicate 1900 'a'
  have h1 : splitForDiscord 1900 ('\n' :: List.replicate 1900 'a') =
      [List.replicate 1900 'a'] := by
    rw [splitForDiscord, if_neg (by simp), hlines]
    rw [splitLoop, if_neg (by simp), if_pos (by simp)]
    rw [splitLoop, if_pos (by simp [hlen]), if_pos (by simp), if_neg (by simp [hlen])]
    rw [splitLoop, if_neg (by simp [← List.length_eq_zero, hlen])]
    rfl
  refine ⟨h1, ?_⟩
  rw [h1]
  intro hx
  have hlen2 := congrArg List.length hx
  rw [List.flatten_cons, List.flatten_nil, List.append_nil, List.length_cons] at hlen2
  omega
